import Mathlib

/-!
Shallow embedding of `langchain_community/document_compressors/flashrank_rerank.py`.

The adapter marshals a list of documents into flashrank passage records,
invokes an external reranker, then truncates the result to `top_n`, filters
by `score_threshold`, and rebuilds documents.  Python dictionaries are
modelled as insertion-ordered association lists with in-place update on key
collision (CPython semantics); Python floats are modelled as rationals;
Python ints as `Int`/`Nat`; fallible indexing returns `Except`.
-/

/-- Values stored in document metadata (Python `Any`, restricted to the
scalar shapes the adapter actually reads and writes). -/
inductive PyVal where
  | int : Int → PyVal
  | float : ℚ → PyVal
  | str : String → PyVal
  | bool : Bool → PyVal
deriving DecidableEq, Repr

/-- Lookup in a Python dict modelled as an association list: the first
binding of the key (dicts built by `dictInsert` hold each key once). -/
def dictGet (d : List (String × PyVal)) (k : String) : Option PyVal :=
  match d with
  | [] => Option.none
  | p :: rest => if p.1 = k then Option.some p.2 else dictGet rest k

/-- CPython dict assignment `d[k] = v`: replaces the value in place when the
key is present (keeping its position), otherwise appends at the end. -/
def dictInsert (d : List (String × PyVal)) (k : String) (v : PyVal) : List (String × PyVal) :=
  match d with
  | [] => [(k, v)]
  | p :: rest => if p.1 = k then (k, v) :: rest else p :: dictInsert rest k v

/-- The keys of a dict, in order. -/
def dictKeys (d : List (String × PyVal)) : List String :=
  d.map Prod.fst

/-- `\x7b**init, **orig\x7d`-style spread: insert every binding of `orig`
into `init`, in order.  This is how a Python dict literal is evaluated:
entries written later overwrite entries written earlier. -/
def spreadInto (init : List (String × PyVal)) (orig : List (String × PyVal)) :
    List (String × PyVal) :=
  match orig with
  | [] => init
  | p :: rest => spreadInto (dictInsert init p.1 p.2) rest

/-- A langchain `Document`: page content plus a metadata dict. -/
structure Document where
  page_content : String
  metadata : List (String × PyVal)
deriving DecidableEq, Repr, Inhabited

/-- A flashrank passage record as built by `compress_documents`:
`\x7b"id": i, "text": ..., "meta": ...\x7d`. -/
structure Passage where
  id : Nat
  text : String
  meta : List (String × PyVal)
deriving DecidableEq, Repr

/-- A flashrank `RerankRequest`: the query and the passages. -/
structure RerankRequest where
  query : String
  passages : List Passage
deriving DecidableEq, Repr

/-- One entry of the reranker response: `\x7b"id": ..., "text": ..., "score": ...\x7d`.
The id refers back to an assigned passage id; the score is a float,
modelled as a rational. -/
structure RerankResult where
  id : Nat
  text : String
  score : ℚ
deriving DecidableEq, Repr

/-- The value held by the `client` field (Python `Any`): `None`, a
`flashrank.Ranker` instance (carrying its model name), or some other
(wrongly typed) Python value. -/
inductive PyClient where
  | none_ : PyClient
  | ranker : String → PyClient
  | intVal : Int → PyClient
  | strVal : String → PyClient
  | boolVal : Bool → PyClient
deriving DecidableEq, Repr

/-- Python truthiness of a `client` value (`if self.client:` / walrus test). -/
def PyClient.truthy : PyClient → Bool
  | .none_ => false
  | .ranker _ => true
  | .intVal n => n != 0
  | .strVal s => !s.isEmpty
  | .boolVal b => b

/-- `isinstance(client, Ranker)`. -/
def PyClient.isRanker : PyClient → Bool
  | .ranker _ => true
  | _ => false

def DEFAULT_MODEL_NAME : String := "ms-marco-MultiBERT-L-12"

/-- The adapter configuration, with the source's field defaults.
`top_n` is a result-count cap (source default `3`); `score_threshold` is the
float threshold (source default `0.0`); `filter_metadata_keys` is an optional
set of keys, modelled as a duplicate-free list. -/
structure FlashrankRerank where
  client : PyClient := PyClient.none_
  model : String := DEFAULT_MODEL_NAME
  top_n : Nat := 3
  score_threshold : ℚ := 0
  prefix_metadata : String := ""
  filter_metadata_keys : Option (List String) := Option.none
deriving DecidableEq, Repr

def importErrorMsg : String :=
  "Could not import flashrank python package. Please install it with pip install flashrank."

def valueErrorMsg : String :=
  "Client Ranker expected from type flashranker.Ranker.Ranker."

def indexErrorMsg : String :=
  "list index out of range"

/-- `validate_environment` (a pydantic before-validator): raises if the
flashrank package is missing, then raises if the supplied `client` value is
truthy and not a `Ranker` instance, else returns the values unchanged. -/
def validate_environment (flashrank_installed : Bool) (client : PyClient) :
    Except String PyClient :=
  if !flashrank_installed then Except.error importErrorMsg
  else if client.truthy && !client.isRanker then Except.error valueErrorMsg
  else Except.ok client

/-- `get_client`: the configured client if truthy, else `Ranker(model_name=self.model)`. -/
def get_client (self_client : PyClient) (model : String) : PyClient :=
  if self_client.truthy then self_client else PyClient.ranker model

/-- Python truthiness of the optional key set: `None` and the empty set are
falsy, a nonempty set is truthy. -/
def setTruthy : Option (List String) → Bool
  | Option.none => false
  | Option.some s => !s.isEmpty

/-- The dict comprehension
`\x7bkey: doc.metadata[key] for key in keys if key in doc.metadata.keys()\x7d`
(the keys of a Python set are pairwise distinct, so the comprehension never
revisits a key and equals this filterMap). -/
def restrictMeta (keys : List String) (md : List (String × PyVal)) :
    List (String × PyVal) :=
  keys.filterMap fun k => (dictGet md k).map fun v => (k, v)

/-- The `meta` field of a passage: the restricted dict when
`self.filter_metadata_keys` is truthy, the full metadata otherwise
(`if self.filter_metadata_keys:`). -/
def passageMeta (filter_metadata_keys : Option (List String))
    (md : List (String × PyVal)) : List (String × PyVal) :=
  if setTruthy filter_metadata_keys then
    restrictMeta (filter_metadata_keys.getD []) md
  else md

/-- The passage-building loop `for i, doc in enumerate(documents)`,
carrying the running index. -/
def buildPassagesFrom (cfg : FlashrankRerank) (i : Nat) :
    List Document → List Passage
  | [] => []
  | doc :: rest =>
    { id := i, text := doc.page_content,
      meta := passageMeta cfg.filter_metadata_keys doc.metadata }
      :: buildPassagesFrom cfg (i + 1) rest

/-- All passages for one call, ids starting at `0`. -/
def buildPassages (cfg : FlashrankRerank) (documents : List Document) :
    List Passage :=
  buildPassagesFrom cfg 0 documents

/-- `RerankRequest(query=query, passages=passages)`. -/
def buildRequest (cfg : FlashrankRerank) (documents : List Document)
    (query : String) : RerankRequest :=
  { query := query, passages := buildPassages cfg documents }

/-- The output `Document` built for a kept result `r` from its source
document: content is the result text, metadata is the dict literal
`\x7bprefix+"id": id, prefix+"relevance_score": score, **source.metadata\x7d`. -/
def mkOutputDoc (cfg : FlashrankRerank) (r : RerankResult) (src : Document) :
    Document :=
  { page_content := r.text,
    metadata :=
      spreadInto
        (dictInsert
          (dictInsert [] (cfg.prefix_metadata ++ "id") (PyVal.int (Int.ofNat r.id)))
          (cfg.prefix_metadata ++ "relevance_score") (PyVal.float r.score))
        src.metadata }

/-- The output loop of `compress_documents`: keep a result iff
`r.score >= self.score_threshold`, look the source document up by the
result id (an out-of-range id raises `IndexError`), and append the rebuilt
document. -/
def processResults (cfg : FlashrankRerank) (documents : List Document) :
    List RerankResult → Except String (List Document)
  | [] => Except.ok []
  | r :: rs =>
    if cfg.score_threshold ≤ r.score then
      match documents[r.id]? with
      | Option.some src =>
        match processResults cfg documents rs with
        | Except.ok rest => Except.ok (mkOutputDoc cfg r src :: rest)
        | Except.error e => Except.error e
      | Option.none => Except.error indexErrorMsg
    else processResults cfg documents rs

/-- `compress_documents(documents, query, callbacks)`.  The external
reranker call `self.get_client().rerank(request)` is abstracted as the
function argument `rerank`; its response is prefix-truncated to `top_n`
(`[: self.top_n]`) and fed to the output loop.  The `callbacks` argument is
accepted and never read, as in the source. -/
def compress_documents {C : Type} (cfg : FlashrankRerank)
    (rerank : RerankRequest → List RerankResult) (documents : List Document)
    (query : String) (callbacks : Option C) : Except String (List Document) :=
  let rerank_response := (rerank (buildRequest cfg documents query)).take cfg.top_n
  processResults cfg documents rerank_response

/-! ### Dictionary lemmas -/

theorem dictGet_dictInsert_self (d : List (String × PyVal)) (k : String) (v : PyVal) :
    dictGet (dictInsert d k v) k = Option.some v := by
  induction d with
  | nil => simp [dictInsert, dictGet]
  | cons p rest ih =>
    by_cases h : p.1 = k
    · simp [dictInsert, h, dictGet]
    · simp [dictInsert, h, dictGet, ih]

theorem dictGet_dictInsert_ne (d : List (String × PyVal)) (k : String) (v : PyVal)
    (k2 : String) (h : k2 ≠ k) :
    dictGet (dictInsert d k v) k2 = dictGet d k2 := by
  induction d with
  | nil => simp [dictInsert, dictGet, Ne.symm h]
  | cons p rest ih =>
    by_cases hp : p.1 = k
    · subst hp
      simp [dictInsert, dictGet, Ne.symm h, fun hh : p.1 = k2 => h hh.symm]
    · simp [dictInsert, hp, dictGet, ih]

theorem dictGet_eq_none_of_not_mem (d : List (String × PyVal)) (k : String)
    (h : k ∉ dictKeys d) : dictGet d k = Option.none := by
  induction d with
  | nil => simp [dictGet]
  | cons p rest ih =>
    simp only [dictKeys, List.map_cons, List.mem_cons] at h
    push_neg at h
    have h1 : ¬p.1 = k := fun hh => h.1 hh.symm
    simp only [dictGet, h1, if_false]
    exact ih (by simpa [dictKeys] using h.2)

theorem dictGet_spreadInto_of_none (orig : List (String × PyVal)) (k : String)
    (h : dictGet orig k = Option.none) (init : List (String × PyVal)) :
    dictGet (spreadInto init orig) k = dictGet init k := by
  induction orig generalizing init with
  | nil => simp [spreadInto]
  | cons p rest ih =>
    simp only [dictGet] at h
    by_cases hp : p.1 = k
    · simp [hp] at h
    · simp only [hp, if_false] at h
      simp only [spreadInto]
      rw [ih h, dictGet_dictInsert_ne _ _ _ _ (Ne.symm hp)]

theorem dictGet_spreadInto_of_some (orig : List (String × PyVal)) (k : String) (v : PyVal)
    (hnd : (dictKeys orig).Nodup) (h : dictGet orig k = Option.some v)
    (init : List (String × PyVal)) :
    dictGet (spreadInto init orig) k = Option.some v := by
  induction orig generalizing init with
  | nil => simp [dictGet] at h
  | cons p rest ih =>
    simp only [dictKeys, List.map_cons, List.nodup_cons] at hnd
    simp only [dictGet] at h
    by_cases hp : p.1 = k
    · simp only [hp, if_true, Option.some.injEq] at h
      subst h
      subst hp
      have hrest : dictGet rest p.1 = Option.none :=
        dictGet_eq_none_of_not_mem _ _ (by simpa [dictKeys] using hnd.1)
      simp only [spreadInto]
      rw [dictGet_spreadInto_of_none _ _ hrest, dictGet_dictInsert_self]
    · simp only [hp, if_false] at h
      simp only [spreadInto]
      exact ih hnd.2 h _

theorem restrictMeta_get (keys : List String) (md : List (String × PyVal)) (k : String) :
    dictGet (restrictMeta keys md) k =
      if k ∈ keys then dictGet md k else Option.none := by
  induction keys with
  | nil => simp [restrictMeta, dictGet]
  | cons k1 rest ih =>
    cases hmd : dictGet md k1 with
    | none =>
      have hstep : restrictMeta (k1 :: rest) md = restrictMeta rest md := by
        simp [restrictMeta, List.filterMap_cons, hmd]
      rw [hstep, ih]
      by_cases hk : k = k1
      · subst hk
        simp [hmd]
      · simp [List.mem_cons, hk]
    | some v =>
      have hstep : restrictMeta (k1 :: rest) md = (k1, v) :: restrictMeta rest md := by
        simp [restrictMeta, List.filterMap_cons, hmd]
      rw [hstep]
      by_cases hk : k1 = k
      · subst hk
        simp [dictGet, hmd]
      · have h2 : ¬k = k1 := fun hh => hk hh.symm
        simp [dictGet, hk, ih, List.mem_cons, h2]

/-! ### Pipeline lemmas -/

theorem buildPassagesFrom_map_id (cfg : FlashrankRerank) (documents : List Document) :
    ∀ i : Nat, (buildPassagesFrom cfg i documents).map Passage.id
      = List.range' i documents.length := by
  induction documents with
  | nil => intro i; simp [buildPassagesFrom]
  | cons doc rest ih =>
    intro i
    simp only [buildPassagesFrom, List.map_cons, List.length_cons, List.range'_succ, ih (i + 1)]

theorem buildPassages_map_id (cfg : FlashrankRerank) (documents : List Document) :
    (buildPassages cfg documents).map Passage.id = List.range documents.length := by
  rw [List.range_eq_range']
  exact buildPassagesFrom_map_id cfg documents 0

theorem processResults_eq_ok (cfg : FlashrankRerank) (documents : List Document) :
    ∀ rs : List RerankResult, (∀ r ∈ rs, r.id < documents.length) →
      processResults cfg documents rs =
        Except.ok ((rs.filter fun r => decide (cfg.score_threshold ≤ r.score)).map
          fun r => mkOutputDoc cfg r (documents.getD r.id default)) := by
  intro rs
  induction rs with
  | nil => intro hv; simp [processResults]
  | cons r rest ih =>
    intro hv
    have hid : r.id < documents.length := hv r (List.mem_cons_self r rest)
    have hsome : documents[r.id]? = Option.some documents[r.id] :=
      List.getElem?_eq_getElem hid
    have hgetD : documents.getD r.id default = documents[r.id] := by
      rw [List.getD_eq_getElem?_getD, hsome]
      rfl
    have ih2 := ih fun x hx => hv x (List.mem_cons_of_mem r hx)
    by_cases hs : cfg.score_threshold ≤ r.score
    · simp only [processResults, if_pos hs, hsome, ih2, List.filter_cons, decide_eq_true_eq,
        hs, if_true, List.map_cons, hgetD]
    · simp only [processResults, if_neg hs, ih2, List.filter_cons, decide_eq_true_eq,
        hs, if_false]

theorem processResults_mem (cfg : FlashrankRerank) (documents : List Document) :
    ∀ (rs : List RerankResult) (out : List Document),
      processResults cfg documents rs = Except.ok out →
      ∀ d ∈ out, ∃ r, r ∈ rs ∧ cfg.score_threshold ≤ r.score ∧
        ∃ src, documents[r.id]? = Option.some src ∧ src ∈ documents ∧
          d = mkOutputDoc cfg r src := by
  intro rs
  induction rs with
  | nil =>
    intro out hok d hd
    simp only [processResults, Except.ok.injEq] at hok
    subst hok
    simp at hd
  | cons r rest ih =>
    intro out hok d hd
    by_cases hs : cfg.score_threshold ≤ r.score
    · simp only [processResults, if_pos hs] at hok
      cases hsrc : documents[r.id]? with
      | none =>
        rw [hsrc] at hok
        simp at hok
      | some src =>
        rw [hsrc] at hok
        cases hrest : processResults cfg documents rest with
        | error e =>
          rw [hrest] at hok
          simp at hok
        | ok restOut =>
          rw [hrest] at hok
          simp only [Except.ok.injEq] at hok
          subst hok
          rcases List.mem_cons.mp hd with hEq | hMem
          · exact ⟨r, List.mem_cons_self r rest, hs, src, hsrc, List.getElem?_mem hsrc, hEq⟩
          · obtain ⟨r2, hr2, hs2, src2, hsrc2, hm2, hd3⟩ := ih restOut hrest d hMem
            exact ⟨r2, List.mem_cons_of_mem r hr2, hs2, src2, hsrc2, hm2, hd3⟩
    · simp only [processResults, if_neg hs] at hok
      obtain ⟨r2, hr2, hs2, src2, hsrc2, hm2, hd3⟩ := ih out hok d hd
      exact ⟨r2, List.mem_cons_of_mem r hr2, hs2, src2, hsrc2, hm2, hd3⟩

theorem processResults_error (cfg : FlashrankRerank) (documents : List Document) :
    ∀ (rs : List RerankResult) (e : String),
      processResults cfg documents rs = Except.error e → e = indexErrorMsg := by
  intro rs
  induction rs with
  | nil =>
    intro e h
    simp [processResults] at h
  | cons r rest ih =>
    intro e h
    by_cases hs : cfg.score_threshold ≤ r.score
    · simp only [processResults, if_pos hs] at h
      cases hsrc : documents[r.id]? with
      | none =>
        rw [hsrc] at h
        simp only [Except.error.injEq] at h
        exact h.symm
      | some src =>
        rw [hsrc] at h
        cases hrest : processResults cfg documents rest with
        | error e2 =>
          rw [hrest] at h
          simp only [Except.error.injEq] at h
          subst h
          exact ih e2 hrest
        | ok restOut =>
          rw [hrest] at h
          simp at h
    · simp only [processResults, if_neg hs] at h
      exact ih e h

theorem length_le_of_nodup_ids (documents : List Document) (rs : List RerankResult)
    (hnd : (rs.map RerankResult.id).Nodup)
    (hlt : ∀ r ∈ rs, r.id < documents.length) : rs.length ≤ documents.length := by
  have h1 : (rs.map RerankResult.id).toFinset ⊆ Finset.range documents.length := by
    intro x hx
    rw [List.mem_toFinset] at hx
    obtain ⟨r, hr, rfl⟩ := List.mem_map.mp hx
    rw [Finset.mem_range]
    exact hlt r hr
  have h2 := Finset.card_le_card h1
  rw [List.toFinset_card_of_nodup hnd, Finset.card_range, List.length_map] at h2
  exact h2

theorem processResults_congr_filter (cfg : FlashrankRerank) (x : Option (List String))
    (documents : List Document) :
    ∀ rs : List RerankResult,
      processResults { cfg with filter_metadata_keys := x } documents rs
        = processResults cfg documents rs := by
  intro rs
  induction rs with
  | nil => rfl
  | cons r rest ih =>
    have h1 : ({ cfg with filter_metadata_keys := x } : FlashrankRerank).score_threshold
        = cfg.score_threshold := rfl
    have h3 : ∀ (r2 : RerankResult) (src : Document),
        mkOutputDoc { cfg with filter_metadata_keys := x } r2 src
          = mkOutputDoc cfg r2 src := fun r2 src => rfl
    simp only [processResults, h1, h3, ih]

theorem buildPassagesFrom_map_meta (cfg : FlashrankRerank) (documents : List Document) :
    ∀ i : Nat, (buildPassagesFrom cfg i documents).map Passage.meta
      = documents.map fun doc => passageMeta cfg.filter_metadata_keys doc.metadata := by
  induction documents with
  | nil => intro i; simp [buildPassagesFrom]
  | cons doc rest ih =>
    intro i
    simp [buildPassagesFrom, ih (i + 1)]

/-! ### Claims -/

/-- Claim C1, counterexample.  The claim states that on key collision the
injected metadata key wins.  On the code, the injected keys are written
BEFORE the spread of the original metadata, so the original value wins: with
default configuration (empty prefix) and a source document whose metadata
already binds "id" to 99, the output document's "id" key still holds 99,
not the injected passage id 0. -/
theorem C1_counterexample :
    compress_documents ({} : FlashrankRerank)
        (fun _ => [⟨0, "d", 1⟩])
        [⟨"d", [("id", PyVal.int 99)]⟩] "q" (Option.none : Option Unit)
      = Except.ok [⟨"d", [("id", PyVal.int 99), ("relevance_score", PyVal.float 1)]⟩]
    ∧ dictGet [("id", PyVal.int 99), ("relevance_score", PyVal.float 1)] "id"
        = Option.some (PyVal.int 99)
    ∧ PyVal.int 99 ≠ PyVal.int 0 :=
  ⟨by rfl, by rfl, by decide⟩

/-- Claim C1, amended: for every output document produced by
compress_documents, when an injected metadata key collides with a key of
the source document's metadata, the ORIGINAL metadata value takes
precedence in the output (the injected keys are written before the spread
of the original metadata, and a Python dict literal lets later entries
overwrite earlier ones). -/
theorem C1_amended_original_metadata_wins {C : Type} (cfg : FlashrankRerank)
    (rerank : RerankRequest → List RerankResult) (documents : List Document)
    (query : String) (callbacks : Option C) (out : List Document)
    (hnd : ∀ doc ∈ documents, (dictKeys doc.metadata).Nodup)
    (hok : compress_documents cfg rerank documents query callbacks = Except.ok out) :
    ∀ d ∈ out, ∃ r src, src ∈ documents ∧ d = mkOutputDoc cfg r src ∧
      ∀ k v, dictGet src.metadata k = Option.some v →
        dictGet d.metadata k = Option.some v := by
  intro d hd
  have hok2 : processResults cfg documents
      ((rerank (buildRequest cfg documents query)).take cfg.top_n) = Except.ok out := hok
  obtain ⟨r, _, _, src, _, hmem, hdeq⟩ :=
    processResults_mem cfg documents _ out hok2 d hd
  refine ⟨r, src, hmem, hdeq, ?_⟩
  intro k v hv
  subst hdeq
  show dictGet (spreadInto _ src.metadata) k = Option.some v
  exact dictGet_spreadInto_of_some src.metadata k v (hnd src hmem) hv _

/-- Witness for the amended C1: on a concrete run, the source key "k" keeps
its original value 7 in the output document. -/
theorem C1_witness :
    (∀ doc ∈ ([⟨"d", [("k", PyVal.int 7)]⟩] : List Document), (dictKeys doc.metadata).Nodup)
    ∧ ∀ d ∈ ([⟨"d", [("id", PyVal.int 0), ("relevance_score", PyVal.float 1),
          ("k", PyVal.int 7)]⟩] : List Document),
        ∃ r src, src ∈ ([⟨"d", [("k", PyVal.int 7)]⟩] : List Document) ∧
          d = mkOutputDoc ({} : FlashrankRerank) r src ∧
          ∀ k v, dictGet src.metadata k = Option.some v →
            dictGet d.metadata k = Option.some v :=
  ⟨by decide,
    C1_amended_original_metadata_wins ({} : FlashrankRerank) (fun _ => [⟨0, "d", 1⟩])
      [⟨"d", [("k", PyVal.int 7)]⟩] "q" (Option.none : Option Unit)
      [⟨"d", [("id", PyVal.int 0), ("relevance_score", PyVal.float 1), ("k", PyVal.int 7)]⟩]
      (by decide) (by rfl)⟩

/-- Claim C2: compress_documents truncates the reranker response to a
prefix of at most top_n entries in the reranker's order, then filters by
score_threshold, and returns the documents in that order; the output only
depends on the top_n prefix of the response, so any result ranked below
position top_n is dropped no matter its score. -/
theorem C2_truncate_then_filter {C : Type} (cfg : FlashrankRerank)
    (rerank : RerankRequest → List RerankResult) (documents : List Document)
    (query : String) (callbacks : Option C)
    (hvalid : ∀ r ∈ (rerank (buildRequest cfg documents query)).take cfg.top_n,
      r.id < documents.length) :
    compress_documents cfg rerank documents query callbacks =
      Except.ok ((((rerank (buildRequest cfg documents query)).take cfg.top_n).filter
          fun r => decide (cfg.score_threshold ≤ r.score)).map
        fun r => mkOutputDoc cfg r (documents.getD r.id default))
    ∧ ∀ rerank2 : RerankRequest → List RerankResult,
        (rerank2 (buildRequest cfg documents query)).take cfg.top_n
          = (rerank (buildRequest cfg documents query)).take cfg.top_n →
        compress_documents cfg rerank2 documents query callbacks
          = compress_documents cfg rerank documents query callbacks := by
  constructor
  · exact processResults_eq_ok cfg documents _ hvalid
  · intro rerank2 heq
    show processResults cfg documents _ = processResults cfg documents _
    rw [heq]

/-- Witness for C2 on a concrete run. -/
theorem C2_witness :
    (∀ r ∈ ((fun (_ : RerankRequest) => [(⟨0, "d", 1⟩ : RerankResult)])
        (buildRequest ({} : FlashrankRerank) [⟨"d", []⟩] "q")).take
          ({} : FlashrankRerank).top_n,
      r.id < ([⟨"d", []⟩] : List Document).length)
    ∧ compress_documents ({} : FlashrankRerank) (fun _ => [⟨0, "d", 1⟩])
        [⟨"d", []⟩] "q" (Option.none : Option Unit)
      = Except.ok [mkOutputDoc ({} : FlashrankRerank) ⟨0, "d", 1⟩ ⟨"d", []⟩] :=
  ⟨by decide,
    ((C2_truncate_then_filter ({} : FlashrankRerank) (fun _ => [⟨0, "d", 1⟩])
      [⟨"d", []⟩] "q" (Option.none : Option Unit) (by decide)).1).trans (by rfl)⟩

/-- Claim C3, counterexample.  The claim quantifies over every configured
set S, but `if self.filter_metadata_keys:` is a truthiness test: with S the
EMPTY set the restriction branch is skipped and the full metadata is
forwarded, while the claim demands the passage meta be exactly the (empty)
intersection.  Key "a" is forwarded although "a" is not in S. -/
theorem C3_counterexample :
    buildPassages { filter_metadata_keys := Option.some [] }
        [⟨"d", [("a", PyVal.int 1)]⟩]
      = [{ id := 0, text := "d", meta := [("a", PyVal.int 1)] }]
    ∧ "a" ∉ ([] : List String) :=
  ⟨by rfl, by decide⟩

/-- Claim C3, amended: for every configuration whose filter_metadata_keys
is a NONEMPTY set S, the passage meta sent to the reranker holds exactly
the keys of S that the document actually has (with the document's values),
and the output-building stage is independent of filter_metadata_keys (the
restriction never touches output metadata). -/
theorem C3_amended_filter_meta (cfg : FlashrankRerank) (S : List String)
    (hS : cfg.filter_metadata_keys = Option.some S) (hne : S ≠ [])
    (documents : List Document) :
    (∀ doc ∈ documents, ∀ k,
      dictGet (passageMeta cfg.filter_metadata_keys doc.metadata) k
        = if k ∈ S then dictGet doc.metadata k else Option.none)
    ∧ ((buildPassages cfg documents).map Passage.meta
        = documents.map fun doc => passageMeta cfg.filter_metadata_keys doc.metadata)
    ∧ ∀ (x : Option (List String)) (ds : List Document) (rs : List RerankResult),
        processResults { cfg with filter_metadata_keys := x } ds rs
          = processResults cfg ds rs := by
  refine ⟨?_, buildPassagesFrom_map_meta cfg documents 0,
    fun x ds rs => processResults_congr_filter cfg x ds rs⟩
  intro doc _ k
  have ht : setTruthy cfg.filter_metadata_keys = true := by
    rw [hS]
    cases S with
    | nil => exact absurd rfl hne
    | cons a t => rfl
  rw [passageMeta, if_pos ht, hS]
  exact restrictMeta_get S doc.metadata k

/-- Witness for the amended C3: with S = \x7b"a"\x7d, the key "b" of the
document is not forwarded to the reranker. -/
theorem C3_witness :
    (["a"] ≠ ([] : List String))
    ∧ dictGet (passageMeta (Option.some ["a"])
        [("a", PyVal.int 1), ("b", PyVal.int 2)]) "b" = Option.none :=
  ⟨by decide,
    ((C3_amended_filter_meta { filter_metadata_keys := Option.some ["a"] } ["a"] rfl
      (by decide) [⟨"d", [("a", PyVal.int 1), ("b", PyVal.int 2)]⟩]).1
      ⟨"d", [("a", PyVal.int 1), ("b", PyVal.int 2)]⟩ (by simp) "b").trans (by rfl)⟩

/-- Claim C4: when every response id names a distinct input position, the
output of compress_documents has length at most min(top_n, number of input
documents). -/
theorem C4_output_length_bound {C : Type} (cfg : FlashrankRerank)
    (rerank : RerankRequest → List RerankResult) (documents : List Document)
    (query : String) (callbacks : Option C)
    (hnd : ((rerank (buildRequest cfg documents query)).map RerankResult.id).Nodup)
    (hlt : ∀ r ∈ rerank (buildRequest cfg documents query), r.id < documents.length)
    (out : List Document)
    (hok : compress_documents cfg rerank documents query callbacks = Except.ok out) :
    out.length ≤ min cfg.top_n documents.length := by
  have hvalid : ∀ r ∈ (rerank (buildRequest cfg documents query)).take cfg.top_n,
      r.id < documents.length :=
    fun r hr => hlt r (List.mem_of_mem_take hr)
  have hok2 : processResults cfg documents
      ((rerank (buildRequest cfg documents query)).take cfg.top_n) = Except.ok out := hok
  rw [processResults_eq_ok cfg documents _ hvalid] at hok2
  simp only [Except.ok.injEq] at hok2
  subst hok2
  rw [List.length_map]
  refine Nat.le_min.mpr ⟨?_, ?_⟩
  · refine le_trans (List.length_filter_le _ _) ?_
    rw [List.length_take]
    exact Nat.min_le_left _ _
  · refine le_trans (List.length_filter_le _ _) ?_
    refine le_trans ?_ (length_le_of_nodup_ids documents
      (rerank (buildRequest cfg documents query)) hnd hlt)
    rw [List.length_take]
    exact Nat.min_le_right _ _

/-- Witness for C4 on a concrete run: one input document, one result, the
output has length 1 ≤ min(3, 1). -/
theorem C4_witness :
    ((((fun (_ : RerankRequest) => [(⟨0, "d", 1⟩ : RerankResult)])
        (buildRequest ({} : FlashrankRerank) [⟨"d", []⟩] "q")).map RerankResult.id).Nodup)
    ∧ ([⟨"d", [("id", PyVal.int 0), ("relevance_score", PyVal.float 1)]⟩] :
        List Document).length
      ≤ min ({} : FlashrankRerank).top_n ([⟨"d", []⟩] : List Document).length :=
  ⟨by decide,
    C4_output_length_bound ({} : FlashrankRerank) (fun _ => [⟨0, "d", 1⟩])
      [⟨"d", []⟩] "q" (Option.none : Option Unit) (by decide) (by decide)
      [⟨"d", [("id", PyVal.int 0), ("relevance_score", PyVal.float 1)]⟩] (by rfl)⟩

/-- Claim C5: within the top_n prefix handed to the output loop, a result
is kept if and only if its score is at least score_threshold (the source
condition is the inclusive comparison score >= threshold); in particular a
result whose score equals the threshold exactly is kept. -/
theorem C5_threshold_inclusive (cfg : FlashrankRerank) (documents : List Document)
    (rs : List RerankResult) (hvalid : ∀ r ∈ rs, r.id < documents.length) :
    processResults cfg documents rs =
      Except.ok ((rs.filter fun r => decide (cfg.score_threshold ≤ r.score)).map
        fun r => mkOutputDoc cfg r (documents.getD r.id default))
    ∧ ∀ r ∈ rs, r.score = cfg.score_threshold →
        r ∈ rs.filter fun r => decide (cfg.score_threshold ≤ r.score) := by
  refine ⟨processResults_eq_ok cfg documents rs hvalid, ?_⟩
  intro r hr hs
  rw [List.mem_filter]
  exact ⟨hr, by simp [hs]⟩

/-- Witness for C5 at the boundary: a result whose score equals the
threshold (both 5) is kept. -/
theorem C5_witness :
    (∀ r ∈ ([⟨0, "d", 5⟩] : List RerankResult),
      r.id < ([⟨"d", []⟩] : List Document).length)
    ∧ processResults { score_threshold := 5 } [⟨"d", []⟩] [⟨0, "d", 5⟩]
        = Except.ok [mkOutputDoc { score_threshold := 5 } ⟨0, "d", 5⟩ ⟨"d", []⟩] :=
  ⟨by decide,
    ((C5_threshold_inclusive { score_threshold := 5 } [⟨"d", []⟩] [⟨0, "d", 5⟩]
      (by decide)).1).trans (by rfl)⟩

/-- Claim C6, counterexample.  The claim states the default threshold
admits every score value the reranker may return; but the default is 0.0
and the kept-condition is score >= 0.0, so a result with the (float-legal)
score -1 inside the top_n prefix is dropped: the output is empty, not a
one-document list. -/
theorem C6_counterexample :
    ({} : FlashrankRerank).score_threshold = 0
    ∧ compress_documents ({} : FlashrankRerank) (fun _ => [⟨0, "d", -1⟩])
        [⟨"d", []⟩] "q" (Option.none : Option Unit) = Except.ok [] :=
  ⟨rfl, by rfl⟩

/-- Claim C6, amended: with the threshold at its default value 0, every
result in the prefix whose score is nonnegative is kept (so the default
admits everything the reranker returns as long as scores are
nonnegative, e.g. probabilities). -/
theorem C6_amended_default_keeps_nonneg (cfg : FlashrankRerank)
    (documents : List Document) (rs : List RerankResult)
    (h0 : cfg.score_threshold = 0) (hpos : ∀ r ∈ rs, 0 ≤ r.score)
    (hvalid : ∀ r ∈ rs, r.id < documents.length) :
    processResults cfg documents rs =
      Except.ok (rs.map fun r => mkOutputDoc cfg r (documents.getD r.id default)) := by
  have hfeq : (rs.filter fun r => decide (cfg.score_threshold ≤ r.score)) = rs :=
    List.filter_eq_self.mpr fun r hr => by simpa [h0] using hpos r hr
  rw [processResults_eq_ok cfg documents rs hvalid, hfeq]

/-- Witness for the amended C6: with the default configuration a result of
score 0 is kept. -/
theorem C6_witness :
    (({} : FlashrankRerank).score_threshold = 0)
    ∧ processResults ({} : FlashrankRerank) [⟨"d", []⟩] [⟨0, "d", 0⟩]
        = Except.ok [mkOutputDoc ({} : FlashrankRerank) ⟨0, "d", 0⟩ ⟨"d", []⟩] :=
  ⟨rfl,
    (C6_amended_default_keeps_nonneg ({} : FlashrankRerank) [⟨"d", []⟩] [⟨0, "d", 0⟩]
      rfl (by decide) (by decide)).trans (by rfl)⟩

/-- Claim C7, counterexample.  The validator guards the isinstance check
with a Python truthiness test of the supplied client, so the falsy
wrongly-typed client 0 (an int, not a Ranker, and not None/absent) passes
validation without any error, contradicting "fails ... for every such
wrongly-typed client value". -/
theorem C7_counterexample :
    validate_environment true (PyClient.intVal 0) = Except.ok (PyClient.intVal 0)
    ∧ (PyClient.intVal 0).isRanker = false
    ∧ PyClient.intVal 0 ≠ PyClient.none_ :=
  ⟨by rfl, by rfl, by decide⟩

/-- Claim C7, amended: a TRUTHY caller-supplied client that is not a
Ranker instance is rejected at construction time with the client-type
error, and that error is never produced by compress_documents (whose only
error is the index error). -/
theorem C7_amended_truthy_client_check :
    (∀ c : PyClient, c.truthy = true → c.isRanker = false →
      validate_environment true c = Except.error valueErrorMsg)
    ∧ (∀ (cfg : FlashrankRerank) (rerank : RerankRequest → List RerankResult)
        (documents : List Document) (query : String) (callbacks : Option Unit)
        (e : String),
        compress_documents cfg rerank documents query callbacks = Except.error e →
        e = indexErrorMsg)
    ∧ valueErrorMsg ≠ indexErrorMsg := by
  refine ⟨?_, ?_, by decide⟩
  · intro c ht hr
    simp [validate_environment, ht, hr]
  · intro cfg rerank documents query callbacks e h
    exact processResults_error cfg documents _ e h

/-- Witness for the amended C7: a truthy non-Ranker client (a nonempty
string) is rejected at validation. -/
theorem C7_witness :
    ((PyClient.strVal "x").truthy = true)
    ∧ validate_environment true (PyClient.strVal "x") = Except.error valueErrorMsg :=
  ⟨by rfl, C7_amended_truthy_client_check.1 (PyClient.strVal "x") (by rfl) (by rfl)⟩

/-- Claim C8: the passages built for a call carry exactly the ids
0..n-1 in input order, a contiguous bijection with input positions. -/
theorem C8_passage_ids (cfg : FlashrankRerank) (documents : List Document) :
    (buildPassages cfg documents).map Passage.id = List.range documents.length
    ∧ (buildPassages cfg documents).length = documents.length := by
  refine ⟨buildPassages_map_id cfg documents, ?_⟩
  have h := congrArg List.length (buildPassages_map_id cfg documents)
  simpa using h

/-- Claim C9: on an empty documents sequence, zero passage records are
built, and (given the data-model trust assumption that every reranker
result id refers back to a passage of the request) the returned sequence
is empty. -/
theorem C9_empty_input {C : Type} (cfg : FlashrankRerank)
    (rerank : RerankRequest → List RerankResult) (query : String)
    (callbacks : Option C)
    (hr : ∀ r ∈ rerank (buildRequest cfg [] query),
      ∃ p ∈ (buildRequest cfg [] query).passages, p.id = r.id) :
    buildPassages cfg [] = []
    ∧ compress_documents cfg rerank [] query callbacks = Except.ok [] := by
  refine ⟨rfl, ?_⟩
  have hresp : rerank (buildRequest cfg [] query) = [] := by
    cases hcase : rerank (buildRequest cfg [] query) with
    | nil => rfl
    | cons r t =>
      obtain ⟨p, hp, _⟩ := hr r (by rw [hcase]; exact List.mem_cons_self r t)
      simp [buildRequest, buildPassages, buildPassagesFrom] at hp
  show processResults cfg []
    ((rerank (buildRequest cfg [] query)).take cfg.top_n) = Except.ok []
  rw [hresp]
  simp [processResults]

/-- Witness for C9 on a concrete run. -/
theorem C9_witness :
    (∀ r ∈ (fun (_ : RerankRequest) => ([] : List RerankResult))
        (buildRequest ({} : FlashrankRerank) [] "q"),
      ∃ p ∈ (buildRequest ({} : FlashrankRerank) [] "q").passages, p.id = r.id)
    ∧ compress_documents ({} : FlashrankRerank) (fun _ => []) [] "q"
        (Option.none : Option Unit) = Except.ok [] :=
  ⟨by simp,
    (C9_empty_input ({} : FlashrankRerank) (fun _ => []) "q"
      (Option.none : Option Unit) (by simp)).2⟩

/-- Claim C10: the callbacks parameter of compress_documents is never
read; two calls that differ only in the callbacks argument return the
same result. -/
theorem C10_callbacks_no_effect (C : Type) (cfg : FlashrankRerank)
    (rerank : RerankRequest → List RerankResult) (documents : List Document)
    (query : String) (cb1 cb2 : Option C) :
    compress_documents cfg rerank documents query cb1
      = compress_documents cfg rerank documents query cb2 := rfl
